import Mathlib

/-!
Verification development for the spi-bridge kernel module (`src/spibridge.c`).

The module multiplexes several virtual device nodes onto one backing spidev
device.  Its arbitration core is a strict-FIFO ticket queue (`g_next_ticket`,
`g_serving`, lines 84-85), an optional ownership hold (`g_owner_fh`,
`g_owner_until`, lines 88-90), and forwarding helpers that relay
read/write/ioctl calls to the backing file.

The shallow embedding below translates each C function into a pure Lean
function over an explicit state record, and models the concurrent uses of the
process-wide queue state as traces of events over a small step function.
Machine integers are modelled as `Nat`/`Int`; the 64-bit atomic counters wrap
with an explicit `% 2 ^ 64` exactly where `atomic64_fetch_inc` /
`atomic64_inc` wrap.  Jiffies timestamps are modelled as `Nat`, with
`time_after_eq a b` read as `b ≤ a`.  Backing file operations are modelled by
their presence (the C code only tests the function pointers for `NULL`)
together with the value the call would return.
-/

namespace SpiBridge

/-! ### Error and poll constants (from `errno.h` / `eventpoll.h`) -/

def ENODEV : Int := 19
def EINVAL : Int := 22
def ENOTTY : Int := 25
def ENOSYS : Int := 38
def EOPNOTSUPP : Int := 95
def ETIMEDOUT : Int := 110
def ERESTARTSYS : Int := 512
def ENOTSUPP : Int := 524

def EPOLLIN : Nat := 1
def EPOLLOUT : Nat := 4
def EPOLLERR : Nat := 8

/-- Modulus of the 64-bit atomic counters `g_next_ticket` and `g_serving`. -/
def U64 : Nat := 2 ^ 64

/-- Stand-in for the kernel's `msecs_to_jiffies` unit conversion (with
`HZ = 1000` it is the identity on non-negative millisecond counts). -/
def msecsToJiffies (ms : Int) : Nat := ms.toNat

/-! ### Process-wide arbitration state (lines 84-90 of `spibridge.c`)

`next_ticket` models `g_next_ticket`, `serving` models `g_serving`,
`owner`/`owner_until` model `g_owner_fh`/`g_owner_until` (a file handle is
identified by an opaque `Nat`), and `wakes` counts the `wake_up_all(&g_wq)`
broadcasts so that waking can be observed in the model. -/

structure QState where
  next_ticket : Nat
  serving : Nat
  owner : Option Nat
  owner_until : Nat
  wakes : Nat
  deriving Repr, DecidableEq

/-- Initial process-wide state: both counters are `ATOMIC64_INIT(0)` and no
owner is recorded. -/
def initQ : QState := ⟨0, 0, none, 0, 0⟩

/-- `spibridge_owner_allows` (lines 99-116).  Returns the `allowed` result
together with the (possibly lazily reset) state: when an owner is recorded and
`time_after_eq(jiffies, g_owner_until)` holds, `g_owner_fh` is set to `NULL`
before the decision is taken. -/
def spibridge_owner_allows (owner_hold_ms : Int) (now fh : Nat) (s : QState) :
    Bool × QState :=
  if owner_hold_ms ≤ 0 then (true, s)
  else
    let s1 := if s.owner.isSome ∧ s.owner_until ≤ now then { s with owner := none } else s
    let allowed := match s1.owner with
      | none => true
      | some o => o == fh
    (allowed, s1)

/-- `spibridge_owner_touch` (lines 118-129): records `fh` as owner and sets
`g_owner_until = jiffies + msecs_to_jiffies(owner_hold_ms)`; does nothing when
the hold feature is disabled. -/
def spibridge_owner_touch (owner_hold_ms : Int) (now fh : Nat) (s : QState) : QState :=
  if owner_hold_ms ≤ 0 then s
  else { s with owner := some fh, owner_until := now + msecsToJiffies owner_hold_ms }

/-- `spibridge_owner_release` (lines 131-139): clears the owner only if it
still equals `fh`. -/
def spibridge_owner_release (fh : Nat) (s : QState) : QState :=
  if s.owner = some fh then { s with owner := none } else s

/-- `spibridge_queue_exit` (lines 203-212): advance `g_serving` (with the
64-bit wrap of `atomic64_inc`) and broadcast `wake_up_all` only if the exiting
ticket is the one currently served. -/
def spibridge_queue_exit (my_ticket : Nat) (s : QState) : QState :=
  if s.serving = my_ticket then
    { s with serving := (s.serving + 1) % U64, wakes := s.wakes + 1 }
  else s

/-- The ticket allocation of `spibridge_queue_enter` line 143:
`atomic64_fetch_inc(&g_next_ticket)` returns the old counter value and stores
the incremented value with 64-bit wrap. -/
def ticket_alloc (s : QState) : Nat × QState :=
  (s.next_ticket, { s with next_ticket := (s.next_ticket + 1) % U64 })

/-! ### Trace model of concurrent queue activity

Each event is one atomic access that a concurrently running operation
performs on the shared state:

* `alloc t` — a `spibridge_queue_enter` call allocates ticket `t` (line 143;
  enabled only for the current counter value, which `atomic64_fetch_inc`
  returns);
* `probe fh now` — one evaluation of the wait condition
  `g_serving == my_ticket && spibridge_owner_allows(fh)` whose outcome did not
  grant entry (its only state effect is the lazy owner reset inside
  `spibridge_owner_allows`);
* `grant fh t now` — the evaluation that breaks out of the wait loop
  (lines 151-188): enabled only when `g_serving == t` and
  `spibridge_owner_allows(fh)` holds.  Because `spibridge_queue_exit` runs
  only after the execution gate `g_exec_mutex` is released (lines 357-361),
  the order of `grant` events is also the order in which operations acquire
  the execution gate;
* `exit t` — `spibridge_queue_exit(t)`;
* `touch fh now` — `spibridge_owner_touch(fh)` (line 198);
* `release fh` — `spibridge_owner_release(fh)` (line 335). -/

inductive Ev where
  | alloc (t : Nat)
  | probe (fh now : Nat)
  | grant (fh t now : Nat)
  | exit (t : Nat)
  | touch (fh now : Nat)
  | release (fh : Nat)
  deriving Repr, DecidableEq

/-- One shared-state access; `none` means the event is not enabled in `s`. -/
def step (hold : Int) (s : QState) : Ev → Option QState
  | .alloc t => if t = (ticket_alloc s).1 then some (ticket_alloc s).2 else none
  | .probe fh now => some (spibridge_owner_allows hold now fh s).2
  | .grant fh t now =>
      if s.serving = t then
        let r := spibridge_owner_allows hold now fh s
        if r.1 then some r.2 else none
      else none
  | .exit t => some (spibridge_queue_exit t s)
  | .touch fh now => some (spibridge_owner_touch hold now fh s)
  | .release fh => some (spibridge_owner_release fh s)

/-- Run a trace of events from a state. -/
def run (hold : Int) : QState → List Ev → Option QState
  | s, [] => some s
  | s, e :: es =>
      match step hold s e with
      | none => none
      | some s1 => run hold s1 es

/-! ### The wait loop of `spibridge_queue_enter` (lines 151-188)

One iteration of the `for (;;)` loop observes the wait condition at the loop
top (`pre`), sleeps in `wait_event_interruptible[_timeout]` obtaining a return
code `rc`, and re-observes the condition right after waking (`post`).
`rc = 0` is the timeout outcome, a negative `rc` is `-ERESTARTSYS`
(interruption), and a positive `rc` means the condition was seen true inside
the wait.  The loop breaks when `pre` (or `post`) is true; otherwise it
records the first failure in `pending_err` and retries, keeping the ticket. -/

inductive WaitR where
  | cond_true
  | timeout
  | interrupted
  deriving Repr, DecidableEq

structure LoopIter where
  pre : Bool
  rc : WaitR
  post : Bool
  deriving Repr, DecidableEq

/-- The `pending_err` value that `spibridge_queue_enter`'s wait loop holds when
it finally breaks out, given the sequence of loop iterations; `none` means the
schedule ended with the call still waiting (no return path taken yet). -/
def enter_pending : List LoopIter → Int → Option Int
  | [], _ => none
  | it :: rest, p =>
      if it.pre then some p
      else if it.post then some p
      else
        match it.rc with
        | .cond_true => enter_pending rest p
        | .timeout => enter_pending rest (if p = 0 then -ETIMEDOUT else p)
        | .interrupted => enter_pending rest (if p = 0 then -ERESTARTSYS else p)

/-- Modelled from the spec's words for comparison: "the first failure kind
encountered (timeout versus interruption) is the one surfaced".  Scans the
iterations that complete a failed wait before entry is granted and returns the
error of the first one. -/
def spec_first_failure : List LoopIter → Option Int
  | [] => none
  | it :: rest =>
      if it.pre then none
      else if it.post then none
      else
        match it.rc with
        | .cond_true => spec_first_failure rest
        | .timeout => some (-ETIMEDOUT)
        | .interrupted => some (-ERESTARTSYS)

/-- Lines 190-200 of `spibridge_queue_enter`, entered once the wait loop has
broken out (so the caller's ticket `t` is the one being served and ownership
eligibility held): with a pending error the ticket is retired and the error
returned; otherwise the caller becomes owner and `0` is returned. -/
def enter_complete (hold : Int) (fh now t : Nat) (p : Int) (s : QState) : Int × QState :=
  if p ≠ 0 then (p, spibridge_queue_exit t s)
  else (0, spibridge_owner_touch hold now fh s)

/-- `spibridge_queue_enter` (lines 141-201) for a call whose ticket is `t`,
given the wait-loop schedule `sched` and the shared state `s` at the moment
the wait loop breaks out.  `none` means the call is still blocked in the wait
loop (it has not returned). -/
def spibridge_queue_enter (hold : Int) (fh : Nat) (sched : List LoopIter)
    (now t : Nat) (s : QState) : Option (Int × QState) :=
  (enter_pending sched 0).map fun p => enter_complete hold fh now t p s

/-! ### Backing-file forwarding (lines 216-265)

The C code inspects `backing_filp` and `backing_filp->f_op` for `NULL` and
then tests the individual function pointers; an entry point is modelled by
its presence together with the value the relayed call returns. -/

structure Fops where
  read : Option Int
  write : Option Int
  unlocked_ioctl : Option Int
  compat_ioctl : Option Int
  poll : Option Nat
  deriving Repr, DecidableEq

structure BackingFile where
  f_op : Option Fops
  deriving Repr, DecidableEq

/-- `struct spibridge_fh` (lines 70-72), extended with an opaque identity used
by the ownership hold (the C code compares `struct spibridge_fh *` pointers). -/
structure SpibridgeFh where
  id : Nat
  backing_filp : Option BackingFile
  deriving Repr, DecidableEq

/-- `spibridge_forward_ioctl` (lines 216-231). -/
def spibridge_forward_ioctl (backing_filp : Option BackingFile) : Int :=
  match backing_filp with
  | none => -ENODEV
  | some bf =>
      match bf.f_op with
      | none => -ENODEV
      | some fops =>
          match fops.unlocked_ioctl with
          | some r => r
          | none => -ENOTTY

/-- `spibridge_forward_read` (lines 233-248). -/
def spibridge_forward_read (backing_filp : Option BackingFile) : Int :=
  match backing_filp with
  | none => -ENODEV
  | some bf =>
      match bf.f_op with
      | none => -ENODEV
      | some fops =>
          match fops.read with
          | some r => r
          | none => -EINVAL

/-- `spibridge_forward_write` (lines 250-265). -/
def spibridge_forward_write (backing_filp : Option BackingFile) : Int :=
  match backing_filp with
  | none => -ENODEV
  | some bf =>
      match bf.f_op with
      | none => -ENODEV
      | some fops =>
          match fops.write with
          | some r => r
          | none => -EINVAL

/-- `spibridge_read` (lines 342-363) for a call whose ticket is `t`: check the
handle, enter the queue (wait-loop schedule `sched`, shared state `s` at the
moment the wait resolves), take the execution gate, relay the read, release
the gate, and retire the ticket.  `none` means the call is still blocked in
the queue. -/
def spibridge_read (hold : Int) (fh : Option SpibridgeFh) (sched : List LoopIter)
    (now t : Nat) (s : QState) : Option (Int × QState) :=
  match fh with
  | none => some (-ENODEV, s)
  | some f =>
      match f.backing_filp with
      | none => some (-ENODEV, s)
      | some bf =>
          match enter_pending sched 0 with
          | none => none
          | some p =>
              if p ≠ 0 then some (enter_complete hold f.id now t p s)
              else
                let s1 := spibridge_owner_touch hold now f.id s
                let ret := spibridge_forward_read (some bf)
                some (ret, spibridge_queue_exit t s1)

/-- `spibridge_poll` (lines 434-445).  Note the type: the function never
touches the ticket queue or the execution gate. -/
def spibridge_poll (fh : Option SpibridgeFh) : Nat :=
  match fh with
  | none => EPOLLERR
  | some f =>
      match f.backing_filp with
      | none => EPOLLERR
      | some bf =>
          match bf.f_op with
          | none => EPOLLIN ||| EPOLLOUT
          | some fops =>
              match fops.poll with
              | none => EPOLLIN ||| EPOLLOUT
              | some r => r

/-! ### Target resolution at open (lines 292-326) -/

/-- The module parameters that `spibridge_open` consults (lines 35-66). -/
structure BridgeConfig where
  backing : String
  ndev : Int
  bus : Int
  per_minor_backing : Bool
  deriving Repr, DecidableEq

/-- The backing path selected by `spibridge_open` (lines 295, 307-310): the
shared `backing` parameter, or `/dev/spidev<bus>.<idx>` in per-minor mode. -/
def resolve_backing (cfg : BridgeConfig) (idx : Nat) : String :=
  if cfg.per_minor_backing then
    "/dev/spidev" ++ cfg.bus.repr ++ "." ++ Nat.repr idx
  else cfg.backing

/-- `spibridge_open` (lines 292-326), reduced to the index guard and backing
target resolution: indices outside `[0, ndev)` fail with `-ENODEV`
(lines 301-305), otherwise the resolved backing path is opened. -/
def spibridge_open (cfg : BridgeConfig) (idx : Int) : Except Int String :=
  if idx < 0 ∨ cfg.ndev ≤ idx then .error (-ENODEV)
  else .ok (resolve_backing cfg idx.toNat)

/-! ### Basic lemmas about the shared-state operations -/
theorem allows_snd (hold : Int) (now fh : Nat) (s : QState) :
    (spibridge_owner_allows hold now fh s).2 = s ∨
    (spibridge_owner_allows hold now fh s).2 = { s with owner := none } := by
  unfold spibridge_owner_allows
  split_ifs <;> simp

theorem touch_counters (hold : Int) (now fh : Nat) (s : QState) :
    (spibridge_owner_touch hold now fh s).serving = s.serving ∧
    (spibridge_owner_touch hold now fh s).next_ticket = s.next_ticket ∧
    (spibridge_owner_touch hold now fh s).wakes = s.wakes := by
  unfold spibridge_owner_touch
  split_ifs <;> simp

theorem exit_not_serving (t : Nat) (s : QState) :
    (spibridge_queue_exit t s).next_ticket = s.next_ticket ∧
    (spibridge_queue_exit t s).owner = s.owner ∧
    (spibridge_queue_exit t s).owner_until = s.owner_until := by
  unfold spibridge_queue_exit
  split_ifs <;> simp

theorem exit_serving (t : Nat) (s : QState) :
    (spibridge_queue_exit t s).serving =
      if s.serving = t then (s.serving + 1) % U64 else s.serving := by
  unfold spibridge_queue_exit
  split_ifs <;> rfl

theorem exit_wakes (t : Nat) (s : QState) :
    (spibridge_queue_exit t s).wakes =
      if s.serving = t then s.wakes + 1 else s.wakes := by
  unfold spibridge_queue_exit
  split_ifs <;> rfl

theorem step_serving_bounds (hold : Int) (s s1 : QState) (e : Ev)
    (h : step hold s e = some s1) :
    s1.serving ≤ s.serving + 1 ∧ (s.serving + 1 < U64 → s.serving ≤ s1.serving) := by
  cases e with
  | alloc t =>
      simp only [step] at h
      split_ifs at h
      injection h with h
      subst h
      exact ⟨Nat.le_succ _, fun _ => Nat.le_refl _⟩
  | probe fh now =>
      simp only [step] at h
      injection h with h
      subst h
      rcases allows_snd hold now fh s with h2 | h2 <;> rw [h2] <;>
        exact ⟨Nat.le_succ _, fun _ => Nat.le_refl _⟩
  | grant fh t now =>
      simp only [step] at h
      split_ifs at h with h1 h2
      · injection h with h
        subst h
        rcases allows_snd hold now fh s with h3 | h3 <;> rw [h3] <;>
          exact ⟨Nat.le_succ _, fun _ => Nat.le_refl _⟩
  | exit t =>
      simp only [step] at h
      injection h with h
      subst h
      rw [exit_serving]
      split_ifs with h1
      · exact ⟨Nat.mod_le _ _, fun hlt => by rw [Nat.mod_eq_of_lt hlt]; omega⟩
      · exact ⟨Nat.le_succ _, fun _ => Nat.le_refl _⟩
  | touch fh now =>
      simp only [step] at h
      injection h with h
      subst h
      have := (touch_counters hold now fh s).1
      omega
  | release fh =>
      simp only [step] at h
      injection h with h
      subst h
      unfold spibridge_owner_release
      split_ifs <;> exact ⟨Nat.le_succ _, fun _ => Nat.le_refl _⟩

theorem step_next_ticket_bounds (hold : Int) (s s1 : QState) (e : Ev)
    (h : step hold s e = some s1) :
    s1.next_ticket ≤ s.next_ticket + 1 ∧
    (s.next_ticket + 1 < U64 → s.next_ticket ≤ s1.next_ticket) := by
  cases e with
  | alloc t =>
      simp only [step] at h
      split_ifs at h
      injection h with h
      subst h
      refine ⟨Nat.mod_le _ _, fun hlt => ?_⟩
      show s.next_ticket ≤ (s.next_ticket + 1) % U64
      rw [Nat.mod_eq_of_lt hlt]
      omega
  | probe fh now =>
      simp only [step] at h
      injection h with h
      subst h
      rcases allows_snd hold now fh s with h2 | h2 <;> rw [h2] <;>
        exact ⟨Nat.le_succ _, fun _ => Nat.le_refl _⟩
  | grant fh t now =>
      simp only [step] at h
      split_ifs at h with h1 h2
      · injection h with h
        subst h
        rcases allows_snd hold now fh s with h3 | h3 <;> rw [h3] <;>
          exact ⟨Nat.le_succ _, fun _ => Nat.le_refl _⟩
  | exit t =>
      simp only [step] at h
      injection h with h
      subst h
      have := (exit_not_serving t s).1
      omega
  | touch fh now =>
      simp only [step] at h
      injection h with h
      subst h
      have := (touch_counters hold now fh s).2.1
      omega
  | release fh =>
      simp only [step] at h
      injection h with h
      subst h
      unfold spibridge_owner_release
      split_ifs <;> exact ⟨Nat.le_succ _, fun _ => Nat.le_refl _⟩

theorem run_cons (hold : Int) (s : QState) (e : Ev) (es : List Ev) :
    run hold s (e :: es) = (step hold s e).bind fun s1 => run hold s1 es := by
  cases hst : step hold s e <;> simp [run, hst]

theorem run_serving_le (hold : Int) (es : List Ev) : ∀ s s2 : QState,
    run hold s es = some s2 → s2.serving ≤ s.serving + es.length := by
  induction es with
  | nil =>
      intro s s2 h
      simp only [run, Option.some.injEq] at h
      subst h
      simp
  | cons e es ih =>
      intro s s2 h
      unfold run at h
      cases hst : step hold s e with
      | none => rw [hst] at h; cases h
      | some s1 =>
          rw [hst] at h
          have h1 := (step_serving_bounds hold s s1 e hst).1
          have h2 := ih s1 s2 h
          simp only [List.length_cons]
          omega

theorem run_serving_mono (hold : Int) (es : List Ev) : ∀ s s2 : QState,
    s.serving + es.length < U64 → run hold s es = some s2 → s.serving ≤ s2.serving := by
  induction es with
  | nil =>
      intro s s2 _ h
      simp only [run, Option.some.injEq] at h
      subst h
      exact Nat.le_refl _
  | cons e es ih =>
      intro s s2 hnw h
      unfold run at h
      cases hst : step hold s e with
      | none => rw [hst] at h; cases h
      | some s1 =>
          rw [hst] at h
          simp only [List.length_cons] at hnw
          have hb := step_serving_bounds hold s s1 e hst
          have h1 : s.serving ≤ s1.serving := hb.2 (by omega)
          have h2 : s1.serving ≤ s2.serving := ih s1 s2 (by omega) h
          omega

theorem run_next_ticket_le (hold : Int) (es : List Ev) : ∀ s s2 : QState,
    run hold s es = some s2 → s2.next_ticket ≤ s.next_ticket + es.length := by
  induction es with
  | nil =>
      intro s s2 h
      simp only [run, Option.some.injEq] at h
      subst h
      simp
  | cons e es ih =>
      intro s s2 h
      unfold run at h
      cases hst : step hold s e with
      | none => rw [hst] at h; cases h
      | some s1 =>
          rw [hst] at h
          have h1 := (step_next_ticket_bounds hold s s1 e hst).1
          have h2 := ih s1 s2 h
          simp only [List.length_cons]
          omega

theorem run_next_ticket_mono (hold : Int) (es : List Ev) : ∀ s s2 : QState,
    s.next_ticket + es.length < U64 → run hold s es = some s2 →
    s.next_ticket ≤ s2.next_ticket := by
  induction es with
  | nil =>
      intro s s2 _ h
      simp only [run, Option.some.injEq] at h
      subst h
      exact Nat.le_refl _
  | cons e es ih =>
      intro s s2 hnw h
      unfold run at h
      cases hst : step hold s e with
      | none => rw [hst] at h; cases h
      | some s1 =>
          rw [hst] at h
          simp only [List.length_cons] at hnw
          have hb := step_next_ticket_bounds hold s s1 e hst
          have h1 : s.next_ticket ≤ s1.next_ticket := hb.2 (by omega)
          have h2 : s1.next_ticket ≤ s2.next_ticket := ih s1 s2 (by omega) h
          omega

theorem run_append (hold : Int) (es1 es2 : List Ev) : ∀ s : QState,
    run hold s (es1 ++ es2) = (run hold s es1).bind fun s1 => run hold s1 es2 := by
  induction es1 with
  | nil => intro s; simp [run]
  | cons e es1 ih =>
      intro s
      simp only [List.cons_append, run_cons]
      cases hst : step hold s e with
      | none => simp
      | some s1 => simp [ih s1]

theorem step_grant_facts (hold : Int) (s s1 : QState) (fh t now : Nat)
    (h : step hold s (.grant fh t now) = some s1) :
    s.serving = t ∧ s1.serving = s.serving := by
  simp only [step] at h
  split_ifs at h with h1 h2
  · injection h with h
    subst h
    refine ⟨h1, ?_⟩
    rcases allows_snd hold now fh s with h3 | h3 <;> rw [h3]

theorem step_alloc_facts (hold : Int) (s s1 : QState) (t : Nat)
    (h : step hold s (.alloc t) = some s1) :
    t = s.next_ticket ∧ s1.next_ticket = (t + 1) % U64 := by
  simp only [step] at h
  split_ifs at h with h1
  injection h with h
  subst h
  exact ⟨h1, by rw [h1]; rfl⟩

theorem step_exits_below (hold : Int) (s s1 : QState) (e : Ev)
    (h : step hold s e = some s1) :
    ∀ t, t < s1.serving → t < s.serving ∨ e = Ev.exit t := by
  intro t ht
  cases e with
  | exit u =>
      simp only [step] at h
      injection h with h
      subst h
      rw [exit_serving] at ht
      split_ifs at ht with hs
      · have hmle : (s.serving + 1) % U64 ≤ s.serving + 1 := Nat.mod_le _ _
        rcases Nat.lt_or_ge t s.serving with hlt | hge
        · exact Or.inl hlt
        · have ht2 : t = s.serving := by omega
          right
          rw [ht2, hs]
      · exact Or.inl ht
  | alloc u =>
      have hb := (step_serving_bounds hold s s1 _ h).1
      simp only [step] at h
      split_ifs at h
      injection h with h
      subst h
      exact Or.inl ht
  | probe fh now =>
      simp only [step] at h
      injection h with h
      subst h
      rcases allows_snd hold now fh s with h2 | h2 <;> rw [h2] at ht <;> exact Or.inl ht
  | grant fh u now =>
      have hg := step_grant_facts hold s s1 fh u now h
      omega
  | touch fh now =>
      simp only [step] at h
      injection h with h
      subst h
      have := (touch_counters hold now fh s).1
      omega
  | release fh =>
      simp only [step] at h
      injection h with h
      subst h
      unfold spibridge_owner_release at ht
      split_ifs at ht <;> exact Or.inl ht

theorem run_exits_below (hold : Int) (es : List Ev) : ∀ s s2 : QState,
    run hold s es = some s2 → ∀ t, t < s2.serving → t < s.serving ∨ Ev.exit t ∈ es := by
  induction es with
  | nil =>
      intro s s2 h t ht
      simp only [run, Option.some.injEq] at h
      subst h
      exact Or.inl ht
  | cons e es ih =>
      intro s s2 h t ht
      unfold run at h
      cases hst : step hold s e with
      | none => rw [hst] at h; cases h
      | some s1 =>
          rw [hst] at h
          rcases ih s1 s2 h t ht with h1 | h1
          · rcases step_exits_below hold s s1 e hst t h1 with h2 | h2
            · exact Or.inl h2
            · exact Or.inr (by simp [h2])
          · exact Or.inr (by simp [h1])

/-! ### Lemmas about the wait loop bookkeeping -/

theorem enter_pending_breaks (sched : List LoopIter) : ∀ p q : Int,
    enter_pending sched p = some q → ∃ it ∈ sched, it.pre = true ∨ it.post = true := by
  induction sched with
  | nil => intro p q h; cases h
  | cons it rest ih =>
      intro p q h
      by_cases h1 : it.pre = true
      · exact ⟨it, by simp, Or.inl h1⟩
      · by_cases h2 : it.post = true
        · exact ⟨it, by simp, Or.inr h2⟩
        · rw [enter_pending, if_neg h1, if_neg h2] at h
          cases hrc : it.rc <;> rw [hrc] at h <;>
            exact (ih _ _ h).imp fun it2 hx => ⟨List.mem_cons_of_mem _ hx.1, hx.2⟩

theorem enter_pending_value (sched : List LoopIter) : ∀ p q : Int,
    enter_pending sched p = some q →
    (p ≠ 0 → q = p) ∧ (p = 0 → q = (spec_first_failure sched).getD 0) := by
  induction sched with
  | nil => intro p q h; cases h
  | cons it rest ih =>
      intro p q h
      by_cases h1 : it.pre = true
      · rw [enter_pending, if_pos h1] at h
        injection h with h
        subst h
        exact ⟨fun _ => rfl, fun hp => by subst hp; simp [spec_first_failure, h1]⟩
      · by_cases h2 : it.post = true
        · rw [enter_pending, if_neg h1, if_pos h2] at h
          injection h with h
          subst h
          exact ⟨fun _ => rfl, fun hp => by subst hp; simp [spec_first_failure, h1, h2]⟩
        · rw [enter_pending, if_neg h1, if_neg h2] at h
          cases hrc : it.rc <;> rw [hrc] at h
          · have hv := ih p q h
            exact ⟨hv.1, fun hp => by rw [hv.2 hp]; simp [spec_first_failure, h1, h2, hrc]⟩
          · by_cases hp0 : p = 0
            · have h3 : enter_pending rest (-ETIMEDOUT) = some q := by simpa [hp0] using h
              have hv := (ih _ _ h3).1 (by norm_num [ETIMEDOUT])
              exact ⟨fun hc => absurd hp0 hc, fun _ => by
                rw [hv]; simp [spec_first_failure, h1, h2, hrc]⟩
            · have h3 : enter_pending rest p = some q := by simpa [hp0] using h
              have hv := (ih _ _ h3).1 hp0
              exact ⟨fun _ => hv, fun hp => absurd hp hp0⟩
          · by_cases hp0 : p = 0
            · have h3 : enter_pending rest (-ERESTARTSYS) = some q := by simpa [hp0] using h
              have hv := (ih _ _ h3).1 (by norm_num [ERESTARTSYS])
              exact ⟨fun hc => absurd hp0 hc, fun _ => by
                rw [hv]; simp [spec_first_failure, h1, h2, hrc]⟩
            · have h3 : enter_pending rest p = some q := by simpa [hp0] using h
              have hv := (ih _ _ h3).1 hp0
              exact ⟨fun _ => hv, fun hp => absurd hp hp0⟩

theorem spec_first_failure_cases (sched : List LoopIter) :
    spec_first_failure sched = none ∨
    spec_first_failure sched = some (-ETIMEDOUT) ∨
    spec_first_failure sched = some (-ERESTARTSYS) := by
  induction sched with
  | nil => exact Or.inl rfl
  | cons it rest ih =>
      unfold spec_first_failure
      split_ifs with h1 h2
      · exact Or.inl rfl
      · exact Or.inl rfl
      · cases hrc : it.rc
        · exact ih
        · exact Or.inr (Or.inl rfl)
        · exact Or.inr (Or.inr rfl)

/-! ### Injectivity of the decimal rendering used for per-minor paths -/

theorem digitChar_inj_lt : ∀ a < 10, ∀ b < 10, Nat.digitChar a = Nat.digitChar b → a = b := by
  decide

theorem map_digitChar_inj : ∀ l1 l2 : List Nat, (∀ x ∈ l1, x < 10) → (∀ x ∈ l2, x < 10) →
    l1.map Nat.digitChar = l2.map Nat.digitChar → l1 = l2 := by
  intro l1
  induction l1 with
  | nil => intro l2 _ _ h; cases l2 <;> simp_all
  | cons a t ih =>
      intro l2 h1 h2 h
      cases l2 with
      | nil => simp_all
      | cons b t2 =>
          simp only [List.map_cons, List.cons.injEq] at h
          have ha : a < 10 := h1 a (by simp)
          have hb : b < 10 := h2 b (by simp)
          have hab : a = b := digitChar_inj_lt a ha b hb h.1
          have ht : t = t2 :=
            ih t2 (fun x hx => h1 x (by simp [hx])) (fun x hx => h2 x (by simp [hx])) h.2
          simp [hab, ht]

theorem toDigitsCore_eq_digits (n : Nat) (hpos : 0 < n) :
    ∀ (fuel : Nat) (ds : List Char), n < fuel →
    Nat.toDigitsCore 10 fuel n ds = ((Nat.digits 10 n).map Nat.digitChar).reverse ++ ds := by
  induction n using Nat.strong_induction_on with
  | _ n ih =>
      intro fuel ds hfuel
      match fuel with
      | 0 => omega
      | f + 1 =>
          rw [Nat.toDigitsCore]
          rw [Nat.digits_def' (by norm_num : (1:Nat) < 10) hpos]
          by_cases hq : n / 10 = 0
          · simp only [hq, if_pos rfl]
            rw [Nat.digits_zero]
            simp
          · simp only [if_neg hq]
            have hlt : n / 10 < n := Nat.div_lt_self hpos (by norm_num)
            rw [ih (n / 10) hlt (Nat.pos_of_ne_zero hq) f (Nat.digitChar (n % 10) :: ds) (by omega)]
            simp

theorem toDigits_eq_digits (n : Nat) (hpos : 0 < n) :
    Nat.toDigits 10 n = ((Nat.digits 10 n).map Nat.digitChar).reverse := by
  rw [Nat.toDigits, toDigitsCore_eq_digits n hpos (n + 1) [] (by omega)]
  simp

theorem toDigits_zero_ne_pos (n : Nat) (hn : 0 < n)
    (hdata : Nat.toDigits 10 0 = Nat.toDigits 10 n) : False := by
  rw [toDigits_eq_digits n hn] at hdata
  have h0 : Nat.toDigits 10 0 = [Char.ofNat 48] := by rfl
  rw [h0] at hdata
  have hrev : (Nat.digits 10 n).map Nat.digitChar = [Char.ofNat 48] := by
    have := congrArg List.reverse hdata
    simpa using this.symm
  have hdig : Nat.digits 10 n = [0] := by
    apply map_digitChar_inj
    · intro x hx; exact Nat.digits_lt_base (by norm_num) hx
    · intro x hx; simp at hx; omega
    · simpa using hrev
  have hod := Nat.ofDigits_digits 10 n
  rw [hdig] at hod
  simp [Nat.ofDigits] at hod
  omega

theorem nat_repr_injective : Function.Injective Nat.repr := by
  intro m n h
  have hdata : Nat.toDigits 10 m = Nat.toDigits 10 n := by
    have := congrArg String.data h
    simpa [Nat.repr, List.asString] using this
  rcases Nat.eq_zero_or_pos m with hm | hm
  · rcases Nat.eq_zero_or_pos n with hn | hn
    · omega
    · exact absurd hdata fun hd => (toDigits_zero_ne_pos n hn (hm ▸ hd)).elim
  · rcases Nat.eq_zero_or_pos n with hn | hn
    · exact absurd hdata.symm fun hd => (toDigits_zero_ne_pos m hm (hn ▸ hd)).elim
    · rw [toDigits_eq_digits m hm, toDigits_eq_digits n hn] at hdata
      have hmap := List.reverse_injective hdata
      have hdig : Nat.digits 10 m = Nat.digits 10 n :=
        map_digitChar_inj _ _ (fun x hx => Nat.digits_lt_base (by norm_num) hx)
          (fun x hx => Nat.digits_lt_base (by norm_num) hx) hmap
      have h1 := Nat.ofDigits_digits 10 m
      have h2 := Nat.ofDigits_digits 10 n
      rw [hdig] at h1
      omega

theorem string_append_left_cancel : ∀ a x y : String, a ++ x = a ++ y → x = y := by
  intro ⟨a⟩ ⟨x⟩ ⟨y⟩ h
  have hd : a ++ x = a ++ y := congrArg String.data h
  exact congrArg String.mk (List.append_cancel_left hd)

/-! ### Claim theorems -/

/-- Claim C1: for every set of concurrently issued operations, the order in
which they are admitted to execution (acquire the Execution Gate) equals the
order in which their tickets were allocated, with the sole exception of
ownership-hold-induced reordering, permitted only within the hold window and
only in favor of the current owner's own next operation.  In the code the
wait condition (line 154) requires `g_serving == my_ticket`, so entry is in
fact granted in strictly increasing ticket order — the permitted exception
never occurs: in any valid trace, two distinct grant events carry tickets in
allocation order. -/
theorem grants_follow_ticket_order (hold : Int) (l1 l2 l3 : List Ev)
    (fh1 t1 n1 fh2 t2 n2 : Nat) (sF : QState)
    (hlen : (l1 ++ Ev.grant fh1 t1 n1 :: (l2 ++ Ev.grant fh2 t2 n2 :: l3)).length < U64)
    (hrun : run hold initQ (l1 ++ Ev.grant fh1 t1 n1 :: (l2 ++ Ev.grant fh2 t2 n2 :: l3)) =
      some sF)
    (hne : t1 ≠ t2) :
    t1 < t2 := by
  rw [run_append] at hrun
  rcases Option.bind_eq_some.mp hrun with ⟨sA, hA, hrest⟩
  rw [run_cons] at hrest
  rcases Option.bind_eq_some.mp hrest with ⟨sB, hB, hrest2⟩
  rw [run_append] at hrest2
  rcases Option.bind_eq_some.mp hrest2 with ⟨sC, hC, hrest3⟩
  rw [run_cons] at hrest3
  rcases Option.bind_eq_some.mp hrest3 with ⟨sD, hD, _⟩
  have hg1 := step_grant_facts hold sA sB fh1 t1 n1 hB
  have hg2 := step_grant_facts hold sC sD fh2 t2 n2 hD
  have hAle : sA.serving ≤ l1.length := by
    have := run_serving_le hold l1 initQ sA hA
    simpa [initQ] using this
  simp only [List.length_append, List.length_cons] at hlen
  have hBeq : sB.serving = sA.serving := hg1.2
  have hnw : sB.serving + l2.length < U64 := by omega
  have hmono := run_serving_mono hold l2 sB sC hnw hC
  omega

/-- Claim C2: every operation that enters the queue retires its ticket exactly
once on every return path of `spibridge_read`: a successfully granted
operation retires after its relay returns (even when the relay fails, i.e.
for every relay result `r`), and a grant that ends in a timeout or
interruption error retires its ticket before the error is returned.  In all
cases the Serving Cursor moves from the operation's ticket `t` to exactly
`t + 1`. -/
theorem read_retires_ticket_on_every_path (hold : Int) (fid : Nat)
    (bf : BackingFile) (sched : List LoopIter) (now t : Nat) (s : QState)
    (r : Int) (sF : QState)
    (hadm : s.serving = t) (hnw : t + 1 < U64)
    (hret : spibridge_read hold (some ⟨fid, some bf⟩) sched now t s = some (r, sF)) :
    sF.serving = t + 1 := by
  simp only [spibridge_read] at hret
  cases hep : enter_pending sched 0 with
  | none => rw [hep] at hret; cases hret
  | some p =>
      rw [hep] at hret
      simp only [] at hret
      split_ifs at hret with hp
      · injection hret with hret
        have h2 : (enter_complete hold fid now t p s).2 = sF := congrArg Prod.snd hret
        rw [← h2]
        unfold enter_complete
        rw [if_pos hp]
        show (spibridge_queue_exit t s).serving = t + 1
        rw [exit_serving, if_pos hadm, hadm]
        exact Nat.mod_eq_of_lt hnw
      · injection hret with hret
        have h2 : spibridge_queue_exit t (spibridge_owner_touch hold now fid s) = sF :=
          congrArg Prod.snd hret
        rw [← h2]
        have htc := (touch_counters hold now fid s).1
        rw [exit_serving, htc, if_pos hadm, hadm]
        exact Nat.mod_eq_of_lt hnw

/-- Claim C3: ticket allocation is injective and strictly monotonic for the
lifetime of the process-wide state: in any valid trace (shorter than `2 ^ 64`
events, so that the 64-bit allocation counter cannot wrap), a queue-entry
call that allocates later receives a numerically greater ticket than every
earlier one; in particular no ticket value is ever issued twice. -/
theorem tickets_strictly_increase (hold : Int) (l1 l2 l3 : List Ev)
    (t1 t2 : Nat) (sF : QState)
    (hlen : (l1 ++ Ev.alloc t1 :: (l2 ++ Ev.alloc t2 :: l3)).length < U64)
    (hrun : run hold initQ (l1 ++ Ev.alloc t1 :: (l2 ++ Ev.alloc t2 :: l3)) = some sF) :
    t1 < t2 := by
  rw [run_append] at hrun
  rcases Option.bind_eq_some.mp hrun with ⟨sA, hA, hrest⟩
  rw [run_cons] at hrest
  rcases Option.bind_eq_some.mp hrest with ⟨sB, hB, hrest2⟩
  rw [run_append] at hrest2
  rcases Option.bind_eq_some.mp hrest2 with ⟨sC, hC, hrest3⟩
  rw [run_cons] at hrest3
  rcases Option.bind_eq_some.mp hrest3 with ⟨sD, hD, _⟩
  have ha1 := step_alloc_facts hold sA sB t1 hB
  have ha2 := step_alloc_facts hold sC sD t2 hD
  have hAle : sA.next_ticket ≤ l1.length := by
    have := run_next_ticket_le hold l1 initQ sA hA
    simpa [initQ] using this
  simp only [List.length_append, List.length_cons] at hlen
  have hBeq : sB.next_ticket = t1 + 1 := by
    rw [ha1.2]
    exact Nat.mod_eq_of_lt (by omega)
  have hnw : sB.next_ticket + l2.length < U64 := by omega
  have hmono := run_next_ticket_mono hold l2 sB sC hnw hC
  omega

/-- Claim C4: `spibridge_queue_exit t` advances the Serving Cursor by exactly
one if and only if the cursor currently equals `t` (a second exit with the
same ticket is a no-op), it then wakes all waiters (the broadcast counter is
bumped exactly when the cursor advances), no other shared-state operation
ever changes the Serving Cursor, and the cursor never advances past a ticket
that has not exited: every ticket below the cursor of a reachable state has
an exit event in the trace. -/
theorem exit_advances_serving_iff (hold : Int) (t : Nat) (s : QState)
    (es : List Ev) (sF : QState) (hnw : s.serving + 1 < U64) :
    ((spibridge_queue_exit t s).serving = s.serving + 1 ↔ s.serving = t) ∧
    (s.serving ≠ t → spibridge_queue_exit t s = s) ∧
    (spibridge_queue_exit t (spibridge_queue_exit t s) = spibridge_queue_exit t s) ∧
    (s.serving = t → (spibridge_queue_exit t s).wakes = s.wakes + 1) ∧
    (∀ e : Ev, (∀ u : Nat, e ≠ Ev.exit u) → ∀ s1 : QState,
        step hold s e = some s1 → s1.serving = s.serving) ∧
    (run hold initQ es = some sF → ∀ u : Nat, u < sF.serving → Ev.exit u ∈ es) := by
  refine ⟨?_, ?_, ?_, ?_, ?_, ?_⟩
  · rw [exit_serving]
    split_ifs with h1
    · rw [Nat.mod_eq_of_lt hnw]
      simp [h1]
    · constructor
      · intro h2; omega
      · intro h2; exact absurd h2 h1
  · intro hne
    unfold spibridge_queue_exit
    rw [if_neg hne]
  · by_cases h1 : s.serving = t
    · have hne2 : (spibridge_queue_exit t s).serving ≠ t := by
        rw [exit_serving, if_pos h1, Nat.mod_eq_of_lt hnw]
        omega
      generalize hX : spibridge_queue_exit t s = X at hne2 ⊢
      unfold spibridge_queue_exit
      rw [if_neg hne2]
    · have he : spibridge_queue_exit t s = s := by
        unfold spibridge_queue_exit
        rw [if_neg h1]
      rw [he]
      exact he
  · intro h1
    rw [exit_wakes, if_pos h1]
  · intro e hne s1 hstep
    cases e with
    | exit u => exact absurd rfl (hne u)
    | alloc u =>
        simp only [step] at hstep
        split_ifs at hstep
        injection hstep with hstep
        subst hstep
        rfl
    | probe fh now =>
        simp only [step] at hstep
        injection hstep with hstep
        subst hstep
        rcases allows_snd hold now fh s with h2 | h2 <;> rw [h2]
    | grant fh u now => exact (step_grant_facts hold s s1 fh u now hstep).2
    | touch fh now =>
        simp only [step] at hstep
        injection hstep with hstep
        subst hstep
        exact (touch_counters hold now fh s).1
    | release fh =>
        simp only [step] at hstep
        injection hstep with hstep
        subst hstep
        unfold spibridge_owner_release
        split_ifs <;> rfl
  · intro hrun u hu
    rcases run_exits_below hold es initQ sF hrun u hu with h | h
    · simp [initQ] at h
    · exact h

/-- Claim C5: `spibridge_owner_allows` returns true unconditionally when the
hold duration is at most zero, and otherwise returns true exactly when no
owner is recorded, the recorded owner equals the candidate, or the Hold
Deadline has elapsed; when the deadline has elapsed the recorded owner is
lazily reset to none as part of the check. -/
theorem owner_allows_matches_spec (hold : Int) (now fh : Nat) (s : QState) :
    (hold ≤ 0 → spibridge_owner_allows hold now fh s = (true, s)) ∧
    (0 < hold →
      (((spibridge_owner_allows hold now fh s).1 = true) ↔
        (s.owner = none ∨ s.owner = some fh ∨ s.owner_until ≤ now)) ∧
      (s.owner_until ≤ now → (spibridge_owner_allows hold now fh s).2.owner = none)) := by
  constructor
  · intro h0
    unfold spibridge_owner_allows
    rw [if_pos h0]
  · intro hpos
    have h0 : ¬ hold ≤ 0 := by omega
    constructor
    · unfold spibridge_owner_allows
      rw [if_neg h0]
      cases ho : s.owner with
      | none => simp [ho]
      | some o =>
          by_cases he : s.owner_until ≤ now
          · simp [ho, he]
          · simp [ho, he, beq_iff_eq]
    · intro he
      unfold spibridge_owner_allows
      rw [if_neg h0]
      cases ho : s.owner with
      | none => simp [ho, he]
      | some o => simp [ho, he]

/-- Claim C6: a bounded-wait expiry or interruption does not abandon the
ticket: the error is returned only once the ticket has been granted entry (a
loop iteration saw the wait condition true — hypothesis `hret` requires the
wait to resolve, and the schedule must contain a break), at which point the
ticket is retired so the Serving Cursor advances past it; the surfaced error
is the first failure kind encountered (`-ETIMEDOUT` for a timed-out wait,
`-ERESTARTSYS` for an interrupted one), and the two are distinct, so callers
can distinguish them. -/
theorem queue_enter_error_policy (hold : Int) (fh : Nat) (sched : List LoopIter)
    (now t : Nat) (s : QState) (err : Int) (sF : QState)
    (hadm : s.serving = t) (hnw : t + 1 < U64)
    (hret : spibridge_queue_enter hold fh sched now t s = some (err, sF)) :
    (∃ it ∈ sched, it.pre = true ∨ it.post = true) ∧
    (err = (spec_first_failure sched).getD 0) ∧
    (err ≠ 0 → sF.serving = t + 1) ∧
    (err = 0 ∨ err = -ETIMEDOUT ∨ err = -ERESTARTSYS) ∧
    ((-ETIMEDOUT : Int) ≠ -ERESTARTSYS) := by
  unfold spibridge_queue_enter at hret
  cases hep : enter_pending sched 0 with
  | none => rw [hep] at hret; cases hret
  | some p =>
      rw [hep, Option.map_some'] at hret
      injection hret with hret
      have herr : (enter_complete hold fh now t p s).1 = err := congrArg Prod.fst hret
      have hstate : (enter_complete hold fh now t p s).2 = sF := congrArg Prod.snd hret
      have hq := enter_pending_value sched 0 p hep
      have hpval : p = (spec_first_failure sched).getD 0 := hq.2 rfl
      have herr2 : err = p := by
        unfold enter_complete at herr
        by_cases hp : p ≠ 0
        · rw [if_pos hp] at herr
          exact herr.symm
        · rw [if_neg hp] at herr
          push_neg at hp
          rw [hp]
          exact herr.symm
      refine ⟨enter_pending_breaks sched 0 p hep, by rw [herr2, hpval], ?_, ?_,
        by norm_num [ETIMEDOUT, ERESTARTSYS]⟩
      · intro hne
        have hp : p ≠ 0 := fun hc => hne (by rw [herr2, hc])
        rw [← hstate]
        unfold enter_complete
        rw [if_pos hp]
        show (spibridge_queue_exit t s).serving = t + 1
        rw [exit_serving, if_pos hadm, hadm]
        exact Nat.mod_eq_of_lt hnw
      · rcases spec_first_failure_cases sched with hc | hc | hc <;>
          rw [herr2, hpval, hc] <;> simp

/-- Claim C7: the ownership touch runs exactly once per successfully granted
operation, immediately before execution: on the success path of
`spibridge_queue_enter` the resulting state is exactly the touched state,
recording the caller as owner with Hold Deadline `now` plus the configured
hold duration (and doing nothing when the hold duration is at most zero),
while on an error path the ownership state is left untouched. -/
theorem touch_on_success_only (hold : Int) (fh now t : Nat) (s : QState) (p : Int) :
    (0 < hold →
      (enter_complete hold fh now t 0 s).2.owner = some fh ∧
      (enter_complete hold fh now t 0 s).2.owner_until = now + msecsToJiffies hold) ∧
    (hold ≤ 0 → (enter_complete hold fh now t 0 s).2 = s) ∧
    (enter_complete hold fh now t 0 s = (0, spibridge_owner_touch hold now fh s)) ∧
    (p ≠ 0 → (enter_complete hold fh now t p s).2.owner = s.owner ∧
      (enter_complete hold fh now t p s).2.owner_until = s.owner_until) := by
  have hc0 : ¬ (0 : Int) ≠ 0 := by norm_num
  refine ⟨?_, ?_, ?_, ?_⟩
  · intro hpos
    unfold enter_complete
    rw [if_neg hc0]
    show (spibridge_owner_touch hold now fh s).owner = some fh ∧
      (spibridge_owner_touch hold now fh s).owner_until = now + msecsToJiffies hold
    unfold spibridge_owner_touch
    rw [if_neg (by omega : ¬ hold ≤ 0)]
    exact ⟨rfl, rfl⟩
  · intro h0
    unfold enter_complete
    rw [if_neg hc0]
    show spibridge_owner_touch hold now fh s = s
    unfold spibridge_owner_touch
    rw [if_pos h0]
  · unfold enter_complete
    rw [if_neg hc0]
  · intro hp
    unfold enter_complete
    rw [if_pos hp]
    exact ⟨(exit_not_serving t s).2.1, (exit_not_serving t s).2.2⟩

/-- Claim C8 counterexample: the claim says a relay with no applicable entry
point fails with a "no such device" or "operation not supported" class error
and never with a different class such as "invalid argument"; but
`spibridge_forward_read` on a backing file whose operation table lacks a read
entry point returns `-EINVAL` — precisely the invalid-argument errno, distinct
from every no-such-device or not-supported errno. -/
theorem forward_read_einval_counterexample :
    spibridge_forward_read (some ⟨some ⟨none, none, none, none, none⟩⟩) = -EINVAL ∧
    (-EINVAL : Int) ≠ -ENODEV ∧
    (-EINVAL : Int) ≠ -ENOTTY ∧ (-EINVAL : Int) ≠ -ENOTSUPP ∧
    (-EINVAL : Int) ≠ -EOPNOTSUPP ∧ (-EINVAL : Int) ≠ -ENOSYS := by
  refine ⟨rfl, ?_, ?_, ?_, ?_, ?_⟩ <;> norm_num [EINVAL, ENODEV, ENOTTY,
    ENOTSUPP, EOPNOTSUPP, ENOSYS]

/-- Claim C8 (amended): a relay whose backing connection or operation table is
absent fails with `-ENODEV` for all three operation kinds; a relay whose
target lacks the applicable entry point fails with `-ENOTTY` ("operation not
supported" class) for device control, but with `-EINVAL` ("invalid argument"
class) for read and write; when the entry point exists its result is
propagated verbatim, so the relay never silently succeeds. -/
theorem forward_error_classes (fops : Fops) :
    (spibridge_forward_read none = -ENODEV) ∧
    (spibridge_forward_write none = -ENODEV) ∧
    (spibridge_forward_ioctl none = -ENODEV) ∧
    (spibridge_forward_read (some ⟨none⟩) = -ENODEV) ∧
    (spibridge_forward_write (some ⟨none⟩) = -ENODEV) ∧
    (spibridge_forward_ioctl (some ⟨none⟩) = -ENODEV) ∧
    (fops.read = none → spibridge_forward_read (some ⟨some fops⟩) = -EINVAL) ∧
    (fops.write = none → spibridge_forward_write (some ⟨some fops⟩) = -EINVAL) ∧
    (fops.unlocked_ioctl = none → spibridge_forward_ioctl (some ⟨some fops⟩) = -ENOTTY) ∧
    (∀ r : Int, fops.read = some r → spibridge_forward_read (some ⟨some fops⟩) = r) ∧
    (∀ r : Int, fops.write = some r → spibridge_forward_write (some ⟨some fops⟩) = r) ∧
    (∀ r : Int, fops.unlocked_ioctl = some r →
      spibridge_forward_ioctl (some ⟨some fops⟩) = r) := by
  obtain ⟨hr, hw, hio, hc, hpl⟩ := fops
  refine ⟨rfl, rfl, rfl, rfl, rfl, rfl, ?_, ?_, ?_, ?_, ?_, ?_⟩ <;>
    first
      | (intro h; subst h; rfl)
      | (intro r h; subst h; rfl)

/-- Claim C9: target resolution at endpoint open is deterministic: in shared
mode every endpoint index resolves to the configured backing target; in
per-minor mode index `i` resolves to the path `/dev/spidev<bus>.<i>`, and
distinct indices resolve to distinct targets. -/
theorem resolve_backing_deterministic (cfg : BridgeConfig) (i j : Nat) :
    (cfg.per_minor_backing = false → resolve_backing cfg i = cfg.backing) ∧
    (cfg.per_minor_backing = true →
      resolve_backing cfg i = "/dev/spidev" ++ cfg.bus.repr ++ "." ++ Nat.repr i) ∧
    (cfg.per_minor_backing = true → i ≠ j →
      resolve_backing cfg i ≠ resolve_backing cfg j) := by
  refine ⟨?_, ?_, ?_⟩
  · intro h
    unfold resolve_backing
    rw [h]
    rfl
  · intro h
    unfold resolve_backing
    rw [h]
    rfl
  · intro h hne heq
    unfold resolve_backing at heq
    rw [h] at heq
    simp only [if_true] at heq
    have := string_append_left_cancel _ _ _ heq
    exact hne (nat_repr_injective this)

/-- Claim C10: `spibridge_poll` bypasses the ticket queue and the Execution
Gate entirely (it is a function of the handle alone and never touches the
queue state); it returns the error poll mask when the handle has no backing
connection, reports the endpoint as simultaneously readable and writable when
the backing target provides no poll entry point (or no operation table), and
otherwise forwards the poll verbatim. -/
theorem poll_bypasses_queue (f : SpibridgeFh) (bf : BackingFile) (fops : Fops) (r : Nat) :
    (spibridge_poll none = EPOLLERR) ∧
    (f.backing_filp = none → spibridge_poll (some f) = EPOLLERR) ∧
    (f.backing_filp = some bf → bf.f_op = none →
      spibridge_poll (some f) = (EPOLLIN ||| EPOLLOUT)) ∧
    (f.backing_filp = some bf → bf.f_op = some fops → fops.poll = none →
      spibridge_poll (some f) = (EPOLLIN ||| EPOLLOUT)) ∧
    (f.backing_filp = some bf → bf.f_op = some fops → fops.poll = some r →
      spibridge_poll (some f) = r) := by
  obtain ⟨fid, fbp⟩ := f
  refine ⟨rfl, ?_, ?_, ?_, ?_⟩
  · intro h
    simp only at h
    subst h
    rfl
  · intro h1 h2
    simp only at h1
    subst h1
    simp [spibridge_poll, h2]
  · intro h1 h2 h3
    simp only at h1
    subst h1
    simp [spibridge_poll, h2, h3]
  · intro h1 h2 h3
    simp only at h1
    subst h1
    simp [spibridge_poll, h2, h3]

/-! ### Witnesses instantiating the claim theorems at concrete inputs -/

/-- Witness for C1: a concrete five-event trace in which tickets 0 and 1 are
granted in order. -/
theorem grants_follow_ticket_order_witness : (0 : Nat) < 1 :=
  grants_follow_ticket_order 0 [Ev.alloc 0] [Ev.exit 0, Ev.alloc 1] [] 7 0 0 8 1 0
    ⟨2, 1, none, 0, 1⟩ (by decide) (by decide) (by decide)

/-- Witness for C2: a concrete read whose relay returns 3 retires ticket 0. -/
theorem read_retires_ticket_on_every_path_witness :
    (QState.mk 0 1 none 0 1).serving = 0 + 1 :=
  read_retires_ticket_on_every_path 0 7 ⟨some ⟨some 3, none, none, none, none⟩⟩
    [⟨true, WaitR.cond_true, true⟩] 0 0 initQ 3 ⟨0, 1, none, 0, 1⟩
    (by decide) (by decide) (by decide)

/-- Witness for C3: a concrete trace of three allocations issues tickets
1 and 2 in order. -/
theorem tickets_strictly_increase_witness : (1 : Nat) < 2 :=
  tickets_strictly_increase 0 [Ev.alloc 0] [] [] 1 2 ⟨3, 0, none, 0, 0⟩
    (by decide) (by decide)

/-- Witness for C4: the advance-iff-served equivalence at ticket 0 in the
initial state. -/
theorem exit_advances_serving_iff_witness :
    (spibridge_queue_exit 0 initQ).serving = initQ.serving + 1 ↔ initQ.serving = 0 :=
  (exit_advances_serving_iff 0 0 initQ [] initQ (by decide)).1

/-- Witness for C5: the eligibility equivalence with a 5 ms hold in the
initial state. -/
theorem owner_allows_matches_spec_witness :
    (spibridge_owner_allows 5 0 1 initQ).1 = true ↔
      (initQ.owner = none ∨ initQ.owner = some 1 ∨ initQ.owner_until ≤ 0) :=
  ((owner_allows_matches_spec 5 0 1 initQ).2 (by decide)).1

/-- Witness for C6: a schedule whose single failed wait timed out surfaces
`-ETIMEDOUT` (numerically `-110`). -/
theorem queue_enter_error_policy_witness :
    (-110 : Int) = (spec_first_failure
      [⟨false, WaitR.timeout, false⟩, ⟨true, WaitR.cond_true, false⟩]).getD 0 :=
  (queue_enter_error_policy 0 7
    [⟨false, WaitR.timeout, false⟩, ⟨true, WaitR.cond_true, false⟩]
    0 0 initQ (-110) ⟨0, 1, none, 0, 1⟩ (by decide) (by decide) (by decide)).2.1

/-- Witness for C7: a successful completion with a 5 ms hold records the
caller as owner with deadline `now + hold`. -/
theorem touch_on_success_only_witness :
    (enter_complete 5 7 3 0 0 initQ).2.owner = some 7 ∧
    (enter_complete 5 7 3 0 0 initQ).2.owner_until = 3 + msecsToJiffies 5 :=
  (touch_on_success_only 5 7 3 0 initQ 1).1 (by decide)

/-- Witness for C8 (amended): a backing file whose operation table lacks a
write entry point makes the write relay fail with `-EINVAL`. -/
theorem forward_error_classes_witness :
    spibridge_forward_write (some ⟨some ⟨none, none, none, none, none⟩⟩) = -EINVAL :=
  (forward_error_classes ⟨none, none, none, none, none⟩).2.2.2.2.2.2.2.1 rfl

/-- Witness for C9: with per-minor backing on bus 0, index 2 resolves to a
target distinct from index 0. -/
theorem resolve_backing_deterministic_witness :
    resolve_backing ⟨"/dev/spidev0.0", 4, 0, true⟩ 2 ≠
      resolve_backing ⟨"/dev/spidev0.0", 4, 0, true⟩ 0 :=
  (resolve_backing_deterministic ⟨"/dev/spidev0.0", 4, 0, true⟩ 2 0).2.2 rfl (by decide)

/-- Witness for C10: a handle without a backing connection polls as an
error. -/
theorem poll_bypasses_queue_witness :
    spibridge_poll (some ⟨1, none⟩) = EPOLLERR :=
  (poll_bypasses_queue ⟨1, none⟩ ⟨none⟩ ⟨none, none, none, none, none⟩ 0).2.1 rfl

end SpiBridge



